import Mathlib

/-!
Verification development for the `redux` build tool (a `redo`-style,
content-addressed build system).  The Rust sources are shallowly embedded:
text is a list of characters, paths are lists of components, content hashes
and build ids are natural numbers, wall-clock times are naturals, the
filesystem is a partial map from paths to contents, and the trace-validity
recursion is modelled with explicit fuel (an out-of-fuel result at every
fuel level models non-termination of the unbounded Rust recursion).

The file is laid out as definitions first (the embedding of the source),
then theorems.
-/

namespace Redux

/-- Text is modelled as a list of characters, mirroring Rust `str`
operations structurally. -/
abbrev Str := List Char

/-- Convert a Lean string literal to the character-list representation. -/
def toL (s : String) : Str := s.data

/-- Model of Rust `str::split_once(sep)`: split at the first occurrence of
`sep`, returning `none` when `sep` does not occur. -/
def splitOnce (sep : Char) : Str → Option (Str × Str)
| [] => none
| c :: rest =>
    if c = sep then some ([], rest)
    else (splitOnce sep rest).map (fun p => (c :: p.1, p.2))

/-- Model of Rust `str::split(sep)` collected into a vector: the list of
(possibly empty) fragments between occurrences of `sep`.  Always returns at
least one fragment. -/
def splitAll (sep : Char) : Str → List Str
| [] => [[]]
| c :: rest =>
    if c = sep then [] :: splitAll sep rest
    else
      match splitAll sep rest with
      | [] => [[c]]
      | p :: ps => (c :: p) :: ps

/-- Inverse of `splitAll`: join fragments with a separator character (the
rendering counterpart used by `Display` impls that intersperse separators). -/
def joinWith (sep : Char) : List Str → Str
| [] => []
| [x] => x
| x :: y :: xs => x ++ sep :: joinWith sep (y :: xs)

/-- Model of Rust `str::trim_end_matches(c)` for a single-character pattern:
remove every trailing occurrence of `c`. -/
def trimEndChar (c : Char) (s : Str) : Str :=
  (s.reverse.dropWhile (fun x => x = c)).reverse

/-- Model of Rust `str::strip_prefix`: `some rest` when the text starts with
`pat`, `none` otherwise. -/
def dropPref : Str → Str → Option Str
| [], s => some s
| _ :: _, [] => none
| p :: ps, c :: cs => if c = p then dropPref ps cs else none

/-- Fuel-driven worker for `trimStartMatches`. -/
def trimStartAux (pat : Str) : Nat → Str → Str
| 0, s => s
| n + 1, s =>
    match dropPref pat s with
    | some rest => if pat = [] then s else trimStartAux pat n rest
    | none => s

/-- Model of Rust `str::trim_start_matches(pat)`: repeatedly strip `pat`
from the front.  (Length fuel suffices: each strip of a nonempty pattern
consumes at least one character.) -/
def trimStartMatches (pat s : Str) : Str := trimStartAux pat s.length s

/-- One hexadecimal digit, lowercase, as rendered by `blake3::Hash::to_hex`
and `uuid`'s hyphenated `Display`. -/
def hexDigit (d : Nat) : Char :=
  if d < 10 then Char.ofNat (48 + d) else Char.ofNat (87 + d)

/-- Value of one hexadecimal digit character (both cases accepted, as by
`blake3::Hash::from_hex` / `uuid::Uuid::parse_str`). -/
def hexVal (c : Char) : Option Nat :=
  if 48 ≤ c.toNat ∧ c.toNat ≤ 57 then some (c.toNat - 48)
  else if 97 ≤ c.toNat ∧ c.toNat ≤ 102 then some (c.toNat - 87)
  else if 65 ≤ c.toNat ∧ c.toNat ≤ 70 then some (c.toNat - 55)
  else none

/-- Fixed-width big-endian lowercase hexadecimal rendering of a natural
number. -/
def toHexFixed : Nat → Nat → Str
| 0, _ => []
| w + 1, n => hexDigit (n / 16 ^ w) :: toHexFixed w (n % 16 ^ w)

/-- Accumulating hexadecimal parser (most significant digit first). -/
def parseHexAcc : Nat → Str → Option Nat
| acc, [] => some acc
| acc, c :: rest => (hexVal c).bind (fun d => parseHexAcc (16 * acc + d) rest)

/-- Parse a hexadecimal string of exactly `w` digits (the length check
mirrors `blake3::Hash::from_hex`, which requires exactly 64 digits). -/
def parseHexExact (w : Nat) (s : Str) : Option Nat :=
  if s.length = w then parseHexAcc 0 s else none

/-- Embedding of `LocalPath` (src/local_path.rs): a path relative to the
workspace root, kept as its list of components.  `Display` joins the
components with `/` exactly as `PathBuf`'s `Display` shows the stored
text, and `FromStr` (infallible) is the inverse split. -/
abbrev LocalPath := List Str

/-- Rendering of a `LocalPath` (its `Display` impl). -/
def renderPath (p : LocalPath) : Str := joinWith '/' p

/-- Parsing of a `LocalPath` (its infallible `FromStr` impl). -/
def parsePath (s : Str) : LocalPath := splitAll '/' s

/-- Embedding of `FileStamp` (src/filestamp.rs): a path paired with the
256-bit content hash of the file, the hash kept as a natural below
`16 ^ 64`. -/
structure FileStamp where
  path : LocalPath
  hash : Nat
deriving DecidableEq

/-- `FileStamp`'s `Display`: `path@hex` with 64 lowercase hex digits. -/
def renderStamp (s : FileStamp) : Str :=
  renderPath s.path ++ '@' :: toHexFixed 64 s.hash

/-- `FileStamp`'s `FromStr`: split at the first `@`, parse both halves. -/
def parseStamp (s : Str) : Option FileStamp :=
  (splitOnce '@' s).bind fun p =>
    (parseHexExact 64 p.2).map fun h => FileStamp.mk (parsePath p.1) h

/-- Embedding of `EnvVar` (src/trace.rs). -/
structure EnvVar where
  key : Str
  val : Str
deriving DecidableEq

/-- `EnvVar`'s `Display`: `"{key}={val} "` — note the trailing space written
by the Rust `Display` impl. -/
def renderEnvVar (e : EnvVar) : Str := e.key ++ '=' :: (e.val ++ [' '])

/-- `EnvVar`'s `FromStr`: split at the first `=`. -/
def parseEnvVar (s : Str) : Option EnvVar :=
  (splitOnce '=' s).map fun p => EnvVar.mk p.1 p.2

/-- Embedding of `JobSpec` (src/trace.rs): rule path, target path and an
environment list. -/
structure JobSpec where
  rule : LocalPath
  target : LocalPath
  env : List (Str × Str)
deriving DecidableEq

/-- `JobSpec`'s `Display`: `rule(target, k=v, ...)`. -/
def renderJobSpec (j : JobSpec) : Str :=
  renderPath j.rule ++ '(' :: (renderPath j.target
    ++ ((j.env.map (fun kv => ',' :: ' ' :: (kv.1 ++ '=' :: kv.2))).flatten ++ [')']))

/-- `JobSpec`'s `FromStr`: split at the first `(`, trim all trailing `)`,
split the remainder on `,`; the first fragment is the target, later
fragments are split at `=` into env pairs.  `none` covers both the
`No ( char` error and the `unwrap` panic on an env fragment without `=`. -/
def parseJobSpec (s : Str) : Option JobSpec :=
  (splitOnce '(' s).bind fun p =>
    match splitAll ',' (trimEndChar ')' p.2) with
    | [] => none
    | tgt :: envs =>
        (envs.mapM (splitOnce '=')).map fun kvs =>
          JobSpec.mk (parsePath p.1) (parsePath tgt) kvs

/-- Rendering of a `BuildId`'s UUID.  Modelled from the external `uuid`
crate: the hyphenated lowercase form (8-4-4-4-12 hex digits) of a 128-bit
value kept as a natural below `16 ^ 32`. -/
def renderUuid (n : Nat) : Str :=
  toHexFixed 8 (n / 16 ^ 24) ++ '-' :: (toHexFixed 4 (n / 16 ^ 20 % 16 ^ 4)
    ++ '-' :: (toHexFixed 4 (n / 16 ^ 16 % 16 ^ 4)
    ++ '-' :: (toHexFixed 4 (n / 16 ^ 12 % 16 ^ 4)
    ++ '-' :: toHexFixed 12 (n % 16 ^ 12))))

/-- Parsing of a `BuildId`'s UUID, hyphenated form (the `uuid` crate accepts
further forms, but only the hyphenated one is produced and exercised
here). -/
def parseUuid (s : Str) : Option Nat :=
  match splitAll '-' s with
  | [a, b, c, d, e] =>
      (parseHexExact 8 a).bind fun va =>
      (parseHexExact 4 b).bind fun vb =>
      (parseHexExact 4 c).bind fun vc =>
      (parseHexExact 4 d).bind fun vd =>
      (parseHexExact 12 e).map fun ve =>
        va * 16 ^ 24 + vb * 16 ^ 20 + vc * 16 ^ 16 + vd * 16 ^ 12 + ve
  | _ => none

/-- Embedding of `TraceFileLine` (src/trace.rs).  Timestamps (`SystemTime`)
are naturals (seconds since the epoch); hashes and build ids are naturals. -/
inductive TraceFileLine where
| job (j : JobSpec)
| source (s : FileStamp)
| generated (s : FileStamp)
| produced (s : FileStamp)
| envVar (e : EnvVar)
| data (h : Nat)
| validFor (b : Nat)
| validUntil (t : Nat)
deriving DecidableEq

/-- `TraceFileLine`'s `Display`.  The timestamp rendering of the external
`humantime` crate is a parameter `rts`. -/
def renderLine (rts : Nat → Str) : TraceFileLine → Str
| .job j => toL "job " ++ renderJobSpec j
| .source s => toL "source " ++ renderStamp s
| .generated s => toL "generated " ++ renderStamp s
| .produced s => toL "produced " ++ renderStamp s
| .envVar e => toL "env_var " ++ renderEnvVar e
| .data h => toL "data " ++ toHexFixed 64 h
| .validFor b => toL "valid_for " ++ renderUuid b
| .validUntil t => toL "valid_until " ++ rts t

/-- `TraceFileLine`'s `FromStr`: split at the first space (defaulting to an
empty remainder), dispatch on the tag.  There is no `"job"` arm in the Rust
`match`; a `job` line therefore falls through to the `Unknown line` error.
The timestamp parser of the external `humantime` crate is a parameter
`pts`. -/
def parseLine (pts : Str → Option Nat) (line : Str) : Option TraceFileLine :=
  let p := (splitOnce ' ' line).getD (line, [])
  if p.1 = toL "source" then (parseStamp p.2).map .source
  else if p.1 = toL "generated" then (parseStamp p.2).map .generated
  else if p.1 = toL "produced" then (parseStamp p.2).map .produced
  else if p.1 = toL "env_var" then (parseEnvVar p.2).map .envVar
  else if p.1 = toL "data" then (parseHexExact 64 p.2).map .data
  else if p.1 = toL "valid_for" then (parseUuid p.2).map .validFor
  else if p.1 = toL "valid_until" then (pts p.2).map .validUntil
  else none

/-- Embedding of `Trace` (src/trace.rs): the fold of a tracefile body. -/
structure Trace where
  env_vars : List EnvVar
  data : List Nat
  sources : List FileStamp
  intermediates : List FileStamp
  outputs : List FileStamp
  valid_for : Option Nat
  valid_until : Option Nat
deriving DecidableEq

/-- `Trace::default()`. -/
def Trace.empty : Trace := ⟨[], [], [], [], [], none, none⟩

/-- `Trace::merge`: fold one parsed line into the record.  Multiple
`valid_until` lines keep the minimum. -/
def Trace.merge (t : Trace) : TraceFileLine → Trace
| .job _ => t
| .source x => { t with sources := t.sources ++ [x] }
| .generated x => { t with intermediates := t.intermediates ++ [x] }
| .produced x => { t with outputs := t.outputs ++ [x] }
| .envVar x => { t with env_vars := t.env_vars ++ [x] }
| .data x => { t with data := t.data ++ [x] }
| .validFor x => { t with valid_for := some x }
| .validUntil x =>
    { t with valid_until := some ((t.valid_until.map (fun y => min y x)).getD x) }

/-- Strip one trailing carriage return, as Rust `str::lines` does per
line. -/
def chopCR (s : Str) : Str :=
  match s.getLast? with
  | some c => if c = '\r' then s.dropLast else s
  | none => s

/-- Model of Rust `str::lines()`: split on `\n`, drop a final empty
fragment (the optional trailing line ending), strip trailing `\r`. -/
def rustLines (s : Str) : List Str :=
  if s = [] then []
  else
    let ps := splitAll '\n' s
    let ps := if ps.getLast? = some [] then ps.dropLast else ps
    ps.map chopCR

/-- `Trace::parse`: fold every line of the body; lines that fail to parse
are logged at warning level and skipped (the intentional soft failure). -/
def parseTraceBody (pts : Str → Option Nat) (txt : Str) : Trace :=
  (rustLines txt).foldl
    (fun t line =>
      match parseLine pts line with
      | some l => t.merge l
      | none => t)
    Trace.empty

/-- Result of a fallible Rust call, distinguishing a returned error from a
panic. -/
inductive RRes (α : Type) where
| ok (a : α)
| err
| panic
deriving DecidableEq

/-- Embedding of `TraceFile::read` (src/trace.rs): `split_once('\n')` on the
whole file — the `.unwrap()` panics when the file holds no newline — then
the header minus every leading `"job "` (via `trim_start_matches`) is
parsed as the `JobSpec` (`?` propagates its error) and the body is
folded. -/
def traceFileRead (pts : Str → Option Nat) (txt : Str) : RRes (JobSpec × Trace) :=
  match splitOnce '\n' txt with
  | none => .panic
  | some p =>
      match parseJobSpec (trimStartMatches (toL "job ") p.1) with
      | none => .err
      | some job => .ok (job, parseTraceBody pts p.2)

/-- Ambient state of a run: the content hasher (external, opaque, injective
on nothing — only equality of hashes is ever inspected), the on-disk file
contents, the current wall-clock time, and the value of the
`REDUX_BUILD_ID` environment variable (`none` when unset or unparseable). -/
structure World where
  hash : Str → Nat
  disk : LocalPath → Option Str
  now : Nat
  buildId : Option Nat

/-- Embedding of `FileStamp::is_valid` (src/filestamp.rs): rehash the
on-disk file and compare; a missing file is an error (`none`), not
`false`. -/
def isValid (w : World) (s : FileStamp) : Option Bool :=
  (w.disk s.path).map fun c => decide (w.hash c = s.hash)

/-- Embedding of `BuildId::is_current` (src/lib.rs): true exactly when
`REDUX_BUILD_ID` is set, parses, and equals this id. -/
def isCurrent (w : World) (id : Nat) : Bool := w.buildId == some id

/-- Embedding of `DepGraph` (src/depgraph.rs): the
`BTreeMap<JobSpec, HashSet<Trace>>` as an association list in iteration
order (jobs in key order, each job with its traces in the hash set's
iteration order). -/
structure DepGraph where
  traces : List (JobSpec × List Trace)
deriving DecidableEq

/-- `DepGraph::all_traces`: every (job, trace) pair in iteration order. -/
def DepGraph.allTraces (g : DepGraph) : List (JobSpec × Trace) :=
  (g.traces.map fun jts => jts.2.map fun t => (jts.1, t)).flatten

/-- `DepGraph::runs_producing`: the (job, trace) pairs whose outputs
contain the given stamp, in iteration order. -/
def runsProducing (g : DepGraph) (file : FileStamp) : List (JobSpec × Trace) :=
  g.allTraces.filter fun jt => jt.2.outputs.any fun x => decide (x = file)

/-- Embedding of `BuildTree` (src/depgraph.rs). -/
inductive BuildTree where
| node (job : JobSpec) (sources : List FileStamp)
    (intermediates : List (FileStamp × BuildTree)) (outputs : List FileStamp)
    (valid_until : Option Nat)

/-- The `find_map` over `runs_producing` inside `is_trace_valid`, generic
in the recursive call `f`.  An out-of-fuel error from a candidate aborts
the whole search: the Rust recursion would still be inside that
candidate. -/
def findWitness (f : JobSpec → Trace → Except Unit (Option BuildTree)) :
    List (JobSpec × Trace) → Except Unit (Option BuildTree)
| [] => .ok none
| jt :: rest =>
    match f jt.1 jt.2 with
    | .error e => .error e
    | .ok (some bt) => .ok (some bt)
    | .ok none => findWitness f rest

/-- The intermediate loop of `is_trace_valid`, generic in the recursive
call: every intermediate stamp needs some valid producing trace; a failed
search invalidates the whole trace (the `?` on the `Option`). -/
def collectInts (f : JobSpec → Trace → Except Unit (Option BuildTree))
    (g : DepGraph) :
    List FileStamp → Except Unit (Option (List (FileStamp × BuildTree)))
| [] => .ok (some [])
| x :: rest =>
    match findWitness f (runsProducing g x) with
    | .error e => .error e
    | .ok none => .ok none
    | .ok (some bt) =>
        match collectInts f g rest with
        | .error e => .error e
        | .ok none => .ok none
        | .ok (some l) => .ok (some ((x, bt) :: l))

/-- Embedding of `DepGraph::is_trace_valid` (src/depgraph.rs), with fuel:
`.error ()` means "out of fuel".  The Rust recursion is unbounded and has
no cycle protection (its own TODO flags this), so divergence on a cyclic
graph appears here as an out-of-fuel result at every fuel level.  The
checks, in source order: `valid_until` strictly in the past fails;
`valid_for` differing from the current build id fails; a source whose
`is_valid()` does not return `true` (errors count, via `unwrap_or(false)`)
fails; then every intermediate needs a recursively valid producer. -/
def isTraceValidF (w : World) (g : DepGraph) :
    Nat → JobSpec → Trace → Except Unit (Option BuildTree)
| 0, _, _ => .error ()
| n + 1, job, t =>
    if (t.valid_until.map fun u => decide (u < w.now)).getD false then .ok none
    else if (t.valid_for.map fun id => !isCurrent w id).getD false then .ok none
    else if !(t.sources.all fun s => (isValid w s).getD false) then .ok none
    else
      match collectInts (fun j u => isTraceValidF w g n j u) g t.intermediates with
      | .error e => .error e
      | .ok none => .ok none
      | .ok (some l) => .ok (some (.node job t.sources l t.outputs t.valid_until))

/-- The `find_map` over one job's trace set, generic in the per-trace
check. -/
def findValid (f : Trace → Except Unit (Option BuildTree)) :
    List Trace → Except Unit (Option BuildTree)
| [] => .ok none
| t :: rest =>
    match f t with
    | .error e => .error e
    | .ok (some bt) => .ok (some bt)
    | .ok none => findValid f rest

/-- Embedding of `DepGraph::valid_trace_for` (src/depgraph.rs), with fuel:
look the job up in the map, and return the first of its traces that
validates. -/
def validTraceForF (w : World) (g : DepGraph) (n : Nat) (job : JobSpec) :
    Except Unit (Option BuildTree) :=
  match g.traces.lookup job with
  | none => .ok none
  | some ts => findValid (fun t => isTraceValidF w g n job t) ts

/-- Sequential source re-validation used by `drop_out_of_date`:
`t.sources.iter().all(|s| s.is_valid().unwrap())`.  `none` models the
`unwrap` panic on the first source whose `is_valid` errors (missing file);
`all` short-circuits on an earlier `false`. -/
def sourcesOkStrict (w : World) : List FileStamp → Option Bool
| [] => some true
| s :: rest =>
    match isValid w s with
    | none => none
    | some false => some false
    | some true => sourcesOkStrict w rest

/-- The inner `HashSet::retain` of `drop_out_of_date`; `none` propagates
the panic. -/
def retainUpToDate (w : World) : List Trace → Option (List Trace)
| [] => some []
| t :: rest =>
    match sourcesOkStrict w t.sources with
    | none => none
    | some keep =>
        (retainUpToDate w rest).map fun l => if keep then t :: l else l

/-- Embedding of `DepGraph::drop_out_of_date` (src/depgraph.rs): drop every
trace that has an out-of-date source, then drop every job key that lost all
of its traces; `none` models the panic on a missing source file. -/
def dropOutOfDate (w : World) (g : DepGraph) : Option DepGraph :=
  (g.traces.mapM fun jts =>
      (retainUpToDate w jts.2).map fun ts => (jts.1, ts)).map fun l =>
    DepGraph.mk (l.filter fun jts => !jts.2.isEmpty)

/-- Componentwise prefix test on lists (used for glob directory
matching). -/
def leadsWith {α : Type} [DecidableEq α] : List α → List α → Bool
| [], _ => true
| _ :: _, [] => false
| x :: xs, y :: ys => decide (x = y) && leadsWith xs ys

/-- Suffix test on character lists (the `*name` part of a default rule's
glob). -/
def endsWith (suf l : Str) : Bool := leadsWith suf.reverse l.reverse

/-- Embedding of `Rule` (src/ruleset.rs): directory, default flag, and name
(for a default rule the name excludes `default` and includes the leading
dot, possibly empty; for a non-default rule it is the filename without
`.do`, nonempty). -/
structure Rule where
  dir : LocalPath
  default : Bool
  name : Str
deriving DecidableEq

/-- Rust `bool` ordering: `false < true`. -/
def cmpBool (a b : Bool) : Ordering :=
  match a, b with
  | false, true => .lt
  | true, false => .gt
  | _, _ => .eq

/-- Embedding of `Rule::priority` (src/ruleset.rs): deeper directory first,
then non-default before default, then longer name. -/
def Rule.priority (a b : Rule) : Ordering :=
  ((compare a.dir.length b.dir.length).then
    (cmpBool a.default b.default).swap).then
    (compare a.name.length b.name.length)

/-- `Rule::to_path`: the dofile path `dir/<default><name>.do`. -/
def Rule.toPath (r : Rule) : LocalPath :=
  r.dir ++ [(if r.default then toL "default" else []) ++ r.name ++ toL ".do"]

/-- Matching of `Rule::to_glob` against a target, under the globset
semantics of the synthesised patterns `dir/**/name` (non-default) and
`dir/**/*name` (default): `**/` matches zero or more whole components and
`*` matches any run (possibly empty) of non-separator characters, so the
target must extend `dir`, and its final component must equal `name`
(non-default) or end in `name` (default). -/
def ruleMatches (r : Rule) (t : LocalPath) : Bool :=
  leadsWith r.dir t && decide (r.dir.length < t.length) &&
    (match t.getLast? with
     | none => false
     | some lastc =>
         if r.default then endsWith r.name lastc else decide (lastc = r.name))

/-- Embedding of `RuleSet` (src/ruleset.rs) after `new`: the rules in
priority order (highest first).  The parallel `do_files` vector is
recovered by `Rule::to_path`. -/
structure RuleSet where
  rules : List Rule

/-- Embedding of `RuleSet::job_for`: the first matching rule
(`matches.first()` is the lowest glob id, i.e. the highest priority);
the job's env list is always empty. -/
def jobFor (rs : RuleSet) (target : LocalPath) : Option JobSpec :=
  (rs.rules.find? fun r => ruleMatches r target).map fun r =>
    JobSpec.mk r.toPath target []

/-- Embedding of `RuleSet::is_job_valid`: re-run the match and compare the
whole `JobSpec`. -/
def isJobValid (rs : RuleSet) (job : JobSpec) : Bool :=
  jobFor rs job.target == some job

/-- Embedding of `DepGraph::drop_superseded` (used by `DepGraph::load`):
keep only jobs that are still the best match for their target. -/
def dropSuperseded (rs : RuleSet) (g : DepGraph) : DepGraph :=
  DepGraph.mk (g.traces.filter fun jts => isJobValid rs jts.1)

/-- Filesystem contents as a partial map from local paths to text. -/
abbrev FS := LocalPath → Option Str

/-- Result of `TraceFile::create`. -/
inductive CreateResult where
| created
| inProgress
| err
deriving DecidableEq

/-- The tracefile path `<target-dir>/.redux_<target-basename>.trace`
(`with_file_name` on the target's path). -/
def tracefilePath (job : JobSpec) : LocalPath :=
  job.target.dropLast ++ [toL ".redux_" ++ job.target.getLastD [] ++ toL ".trace"]

/-- Update one path of the filesystem. -/
def fsPut (fs : FS) (p : LocalPath) (c : Str) : FS :=
  fun q => if q = p then some c else fs q

/-- Embedding of `TraceFile::create` (src/trace.rs): exclusive
`File::create_new` on the tracefile path.  A pre-existing file yields
`inProgress` ("a build job is already in progress") and leaves the
filesystem unchanged; otherwise the header line `job <spec>` is written,
then the rule script is hashed (`FileStamp::new`) — an error if the rule
file is missing, leaving only the header behind — and the
`source <rule-stamp>` line follows.  `writeln!` terminates each line with
`\n`. -/
def traceFileCreate (hash : Str → Nat) (fs : FS) (job : JobSpec) :
    CreateResult × FS :=
  let path := tracefilePath job
  match fs path with
  | some _ => (.inProgress, fs)
  | none =>
      let line1 := renderLine (fun _ => []) (.job job) ++ ['\n']
      match fs job.rule with
      | none => (.err, fsPut fs path line1)
      | some rulesrc =>
          let stamp := FileStamp.mk job.rule (hash rulesrc)
          (.created,
            fsPut fs path
              (line1 ++ renderLine (fun _ => []) (.source stamp) ++ ['\n']))

/-- Graph extension (for the monotonicity claim): every (job, trace) pair
of `g` occurs in `g'`; more jobs or more traces may be present, and the
iteration order may differ (a `BTreeMap` re-sorts keys and a `HashSet` may
rehash on growth). -/
def graphLE (g g' : DepGraph) : Prop :=
  ∀ jt ∈ g.allTraces, jt ∈ g'.allTraces

/-- A trace that the volatility rules forbid reusing: `valid_until` set and
strictly in the past, or `valid_for` set and not equal to the build id
currently in the environment (in particular when no id is set). -/
def StaleTrace (w : World) (t : Trace) : Prop :=
  (∃ u, t.valid_until = some u ∧ u < w.now) ∨
  (∃ id, t.valid_for = some id ∧ w.buildId ≠ some id)

/-- Well-formedness of a path for serialisation round trips: nonempty, and
no component contains the separator. -/
def PathWf (p : LocalPath) : Prop := p ≠ [] ∧ ∀ comp ∈ p, '/' ∉ comp

/-- Well-formedness of a stamp for serialisation round trips: the path is
well formed and free of `@`, and the hash is a 256-bit value. -/
def StampWf (s : FileStamp) : Prop :=
  PathWf s.path ∧ (∀ comp ∈ s.path, '@' ∉ comp) ∧ s.hash < 16 ^ 64

/-- Well-formedness of a `JobSpec` for the serialisation round trip: both
paths well formed, the rule free of `(`, the target free of `,` and `)`,
and the env list empty. -/
def JobWf (j : JobSpec) : Prop :=
  PathWf j.rule ∧ PathWf j.target ∧ (∀ comp ∈ j.rule, '(' ∉ comp) ∧
    (∀ comp ∈ j.target, ',' ∉ comp ∧ ')' ∉ comp) ∧ j.env = []

/-- Concrete timestamp codec instantiating the external `humantime`
parameters in witnesses: 16 fixed hexadecimal digits. -/
def natRts (t : Nat) : Str := toHexFixed 16 t

/-- Parser half of the concrete timestamp codec. -/
def natPts (s : Str) : Option Nat := parseHexExact 16 s

/-- A world with an empty disk, zero time and no build id set. -/
def wNull : World := ⟨fun _ => 0, fun _ => none, 0, none⟩

/-- A world whose clock is at 10 (for the expiry witness). -/
def wTen : World := ⟨fun _ => 0, fun _ => none, 10, none⟩

/-- Stamp for the file `x` (content hash 0). -/
def stampX : FileStamp := ⟨[toL "x"], 0⟩

/-- Stamp for the file `y` (content hash 0). -/
def stampY : FileStamp := ⟨[toL "y"], 0⟩

/-- A malformed trace whose intermediate stamp is among its own outputs:
job `a.do(x)` reads `x` and produces `x`. -/
def jCyc : JobSpec := ⟨[toL "a.do"], [toL "x"], []⟩

/-- The self-producing trace of `jCyc`. -/
def tCyc : Trace := ⟨[], [], [], [stampX], [stampX], none, none⟩

/-- The one-job graph holding only the cyclic trace. -/
def gCyc : DepGraph := ⟨[(jCyc, [tCyc])]⟩

/-- A well-behaved producer of `x` with no dependencies. -/
def jGood : JobSpec := ⟨[toL "b.do"], [toL "x"], []⟩

/-- The trace of `jGood`: no sources, no intermediates, outputs `x`. -/
def tGood : Trace := ⟨[], [], [], [], [stampX], none, none⟩

/-- A consumer of `x` producing `y`. -/
def jTop : JobSpec := ⟨[toL "c.do"], [toL "y"], []⟩

/-- The trace of `jTop`: intermediate `x`, output `y`. -/
def tTop : Trace := ⟨[], [], [], [stampX], [stampY], none, none⟩

/-- Graph in which `jTop`'s trace is valid: `x` is produced by `tGood`. -/
def gMono : DepGraph := ⟨[(jGood, [tGood]), (jTop, [tTop])]⟩

/-- The extension of `gMono` by the cyclic producer of `x`, whose job key
(`a.do` < `b.do` < `c.do`) sorts first in `BTreeMap` iteration order, so
the search for a producer of `x` tries it before `tGood`. -/
def gMonoX : DepGraph := ⟨[(jCyc, [tCyc]), (jGood, [tGood]), (jTop, [tTop])]⟩

/-- The build tree witnessing `tTop` in `gMono`. -/
def btTop : BuildTree :=
  .node jTop [] [(stampX, .node jGood [] [] [stampX] none)] [stampY] none

/-- A stamp whose file is missing from every disk of `wNull`. -/
def sMissing : FileStamp := ⟨[toL "gone"], 0⟩

/-- A trace with the missing file among its sources. -/
def tC5 : Trace := ⟨[], [], [sMissing], [], [stampY], none, none⟩

/-- Job key for `tC5`. -/
def jC5 : JobSpec := ⟨[toL "y.do"], [toL "y"], []⟩

/-- The graph containing only `tC5`. -/
def gC5 : DepGraph := ⟨[(jC5, [tC5])]⟩

/-- A trace that expired at time 5 (used with `wTen`, whose clock is 10). -/
def tStale : Trace := ⟨[], [], [], [], [stampY], none, some 5⟩

/-- The empty dependency graph. -/
def gEmpty : DepGraph := ⟨[]⟩

/-- Rules for the same-directory priority counterexample: two default
rules with distinct extension names of equal length. -/
def rDotA : Rule := ⟨[], true, toL ".a"⟩

/-- Second rule of the priority counterexample. -/
def rDotB : Rule := ⟨[], true, toL ".b"⟩

/-- The non-default rule `d/foo.bar.do`. -/
def rC2 : Rule := ⟨[toL "d"], false, toL "foo.bar"⟩

/-- The ruleset holding only `rC2`. -/
def rsC2 : RuleSet := ⟨[rC2]⟩

/-- The target `d/sub/foo.bar`, in a subdirectory of the rule's
directory. -/
def tC2sub : LocalPath := [toL "d", toL "sub", toL "foo.bar"]

/-- Concrete job used in the serialisation counterexample and witnesses. -/
def jEx : JobSpec := ⟨[toL "r.do"], [toL "t"], []⟩

/-- A minimal committed tracefile text: header plus trailing newline. -/
def txtC10 : Str := toL "job " ++ toL "r.do(t)" ++ '\n' :: []

/-- The constant-zero hasher used by concrete witnesses. -/
def hashZero : Str → Nat := fun _ => 0

/-- A filesystem holding only the rule script `r.do`. -/
def fsEx : FS := fun p => if p = [toL "r.do"] then some (toL "echo") else none

/-! ## Theorems about the text primitives -/

theorem splitOnce_eq_none (sep : Char) (s : Str) (h : sep ∉ s) :
    splitOnce sep s = none := by
  induction s with
  | nil => rfl
  | cons c rest ih =>
      simp only [List.mem_cons, not_or] at h
      simp [splitOnce, Ne.symm h.1, ih h.2]

theorem splitOnce_append (sep : Char) (a b : Str) (h : sep ∉ a) :
    splitOnce sep (a ++ sep :: b) = some (a, b) := by
  induction a with
  | nil => simp [splitOnce]
  | cons c rest ih =>
      simp only [List.mem_cons, not_or] at h
      simp [splitOnce, Ne.symm h.1, ih h.2]

theorem splitAll_ne_nil (sep : Char) (s : Str) : splitAll sep s ≠ [] := by
  induction s with
  | nil => simp [splitAll]
  | cons c rest ih =>
      by_cases hc : c = sep
      · simp [splitAll, hc]
      · simp only [splitAll, if_neg hc]
        cases hs : splitAll sep rest with
        | nil => simp
        | cons p ps => simp

theorem splitAll_no_sep (sep : Char) (s : Str) (h : sep ∉ s) :
    splitAll sep s = [s] := by
  induction s with
  | nil => rfl
  | cons c rest ih =>
      simp only [List.mem_cons, not_or] at h
      simp [splitAll, Ne.symm h.1, ih h.2]

theorem splitAll_append (sep : Char) (a b : Str) (h : sep ∉ a) :
    splitAll sep (a ++ sep :: b) = a :: splitAll sep b := by
  induction a with
  | nil => simp [splitAll]
  | cons c rest ih =>
      simp only [List.mem_cons, not_or] at h
      simp only [List.cons_append, splitAll, if_neg (Ne.symm h.1), List.append_eq]
      rw [ih h.2]

theorem joinWith_splitAll (sep : Char) (l : List Str) (hne : l ≠ [])
    (h : ∀ x ∈ l, sep ∉ x) : splitAll sep (joinWith sep l) = l := by
  induction l with
  | nil => exact absurd rfl hne
  | cons x xs ih =>
      cases xs with
      | nil =>
          simp only [joinWith]
          exact splitAll_no_sep sep x (h x (by simp))
      | cons y ys =>
          have hx : sep ∉ x := h x (by simp)
          have hrest : ∀ z ∈ y :: ys, sep ∉ z := by
            intro z hz; exact h z (List.mem_cons_of_mem _ hz)
          simp only [joinWith, splitAll_append sep x _ hx]
          rw [ih (by simp) hrest]

theorem dropWhile_eq_self_of_not_mem {c : Char} {t : Str} (h : c ∉ t) :
    t.dropWhile (fun x => x = c) = t := by
  cases t with
  | nil => rfl
  | cons a rest =>
      simp only [List.mem_cons, not_or] at h
      simp [List.dropWhile_cons, Ne.symm h.1]

theorem trimEndChar_append (c : Char) (s : Str) (h : c ∉ s) :
    trimEndChar c (s ++ [c]) = s := by
  unfold trimEndChar
  rw [show (s ++ [c]).reverse = c :: s.reverse by simp]
  have hstep : (c :: s.reverse).dropWhile (fun x => x = c) =
      s.reverse.dropWhile (fun x => x = c) := by
    simp [List.dropWhile_cons]
  rw [hstep, dropWhile_eq_self_of_not_mem (by simpa using h), List.reverse_reverse]

theorem trimEndChar_no_occ (c : Char) (s : Str) (h : c ∉ s) :
    trimEndChar c s = s := by
  unfold trimEndChar
  rw [dropWhile_eq_self_of_not_mem (by simpa using h), List.reverse_reverse]

theorem dropPref_append (p r : Str) : dropPref p (p ++ r) = some r := by
  induction p with
  | nil => rfl
  | cons c cs ih => simp [dropPref, ih]

theorem trimStartAux_stuck (pat : Str) (n : Nat) (s : Str)
    (h : dropPref pat s = none) : trimStartAux pat n s = s := by
  cases n with
  | zero => rfl
  | succ m => simp [trimStartAux, h]

theorem trimStartMatches_once (pat r : Str) (hne : pat ≠ [])
    (h : dropPref pat r = none) : trimStartMatches pat (pat ++ r) = r := by
  unfold trimStartMatches
  have hlen : (pat ++ r).length = pat.length + r.length := by
    simp [List.length_append]
  rw [hlen]
  cases pat with
  | nil => exact absurd rfl hne
  | cons c cs =>
      have : (c :: cs).length + r.length = (cs.length + r.length) + 1 := by
        simp [List.length_cons]; omega
      rw [this]
      simp only [trimStartAux, dropPref_append]
      rw [if_neg (by simp)]
      exact trimStartAux_stuck _ _ _ h

theorem hexVal_hexDigit (d : Nat) (h : d < 16) : hexVal (hexDigit d) = some d := by
  interval_cases d <;> decide

theorem hexDigit_range (d : Nat) (h : d < 16) :
    (48 ≤ (hexDigit d).toNat ∧ (hexDigit d).toNat ≤ 57) ∨
    (97 ≤ (hexDigit d).toNat ∧ (hexDigit d).toNat ≤ 102) := by
  interval_cases d <;> decide

theorem toHexFixed_length (w n : Nat) : (toHexFixed w n).length = w := by
  induction w generalizing n with
  | zero => rfl
  | succ m ih => simp [toHexFixed, ih]

theorem toHexFixed_mem_range (w n : Nat) (hn : n < 16 ^ w) :
    ∀ c ∈ toHexFixed w n,
      (48 ≤ c.toNat ∧ c.toNat ≤ 57) ∨ (97 ≤ c.toNat ∧ c.toNat ≤ 102) := by
  induction w generalizing n with
  | zero => intro c hc; simp [toHexFixed] at hc
  | succ m ih =>
      intro c hc
      simp only [toHexFixed, List.mem_cons] at hc
      rcases hc with hc | hc
      · subst hc
        apply hexDigit_range
        have : 16 ^ (m + 1) = 16 ^ m * 16 := by ring
        rw [this] at hn
        exact Nat.div_lt_of_lt_mul hn
      · exact ih (n % 16 ^ m) (Nat.mod_lt _ (by positivity)) c hc

theorem toHexFixed_not_mem (w n : Nat) (hn : n < 16 ^ w) (c : Char)
    (hc : c.toNat < 48 ∨ (57 < c.toNat ∧ c.toNat < 97) ∨ 102 < c.toNat) :
    c ∉ toHexFixed w n := by
  intro hmem
  rcases toHexFixed_mem_range w n hn c hmem with ⟨h1, h2⟩ | ⟨h1, h2⟩ <;> omega

theorem parseHexAcc_toHexFixed (w : Nat) :
    ∀ (acc n : Nat), n < 16 ^ w →
      parseHexAcc acc (toHexFixed w n) = some (acc * 16 ^ w + n) := by
  induction w with
  | zero =>
      intro acc n hn
      interval_cases n
      simp [toHexFixed, parseHexAcc]
  | succ m ih =>
      intro acc n hn
      have hq : n / 16 ^ m < 16 := by
        have h16 : 16 ^ (m + 1) = 16 ^ m * 16 := by ring
        rw [h16] at hn
        exact Nat.div_lt_of_lt_mul hn
      have hr : n % 16 ^ m < 16 ^ m := Nat.mod_lt _ (by positivity)
      simp only [toHexFixed, parseHexAcc, hexVal_hexDigit _ hq, Option.bind]
      rw [ih (16 * acc + n / 16 ^ m) (n % 16 ^ m) hr]
      congr 1
      have hdm := Nat.div_add_mod n (16 ^ m)
      have hpow : 16 ^ (m + 1) = 16 ^ m * 16 := by ring
      rw [hpow]
      have hkey : (16 * acc + n / 16 ^ m) * 16 ^ m + n % 16 ^ m =
          acc * (16 ^ m * 16) + (16 ^ m * (n / 16 ^ m) + n % 16 ^ m) := by ring
      rw [hkey, hdm]

theorem parseHexExact_toHexFixed (w n : Nat) (hn : n < 16 ^ w) :
    parseHexExact w (toHexFixed w n) = some n := by
  unfold parseHexExact
  rw [if_pos (toHexFixed_length w n)]
  simpa using parseHexAcc_toHexFixed w 0 n hn

/-! ## Supporting lemmas for the claim theorems -/

theorem then_swap (a b : Ordering) :
    (a.then b).swap = a.swap.then b.swap := by
  cases a <;> rfl

theorem then_eq_eq {a b : Ordering} (h : a.then b = .eq) :
    a = .eq ∧ b = .eq := by
  cases a <;> simp_all [Ordering.then]

theorem cmpBool_swap (a b : Bool) : (cmpBool a b).swap = cmpBool b a := by
  cases a <;> cases b <;> rfl

theorem cmpBool_eq_eq {a b : Bool} (h : cmpBool a b = .eq) : a = b := by
  cases a <;> cases b <;> simp_all [cmpBool]

theorem cycDiverges (w : World) (g : DepGraph) (j : JobSpec) (t : Trace)
    (x : FileStamp) (rest : List (JobSpec × Trace))
    (h1 : t.valid_until = none) (h2 : t.valid_for = none) (h3 : t.sources = [])
    (h4 : t.intermediates = [x]) (h5 : runsProducing g x = (j, t) :: rest) :
    ∀ n, isTraceValidF w g n j t = .error () := by
  intro n
  induction n with
  | zero => rfl
  | succ m ih =>
      simp [isTraceValidF, h1, h2, h3, h4, h5, collectInts, findWitness, ih]

theorem leadsWith_iff {α : Type} [DecidableEq α] (p l : List α) :
    leadsWith p l = true ↔ ∃ rest, l = p ++ rest := by
  induction p generalizing l with
  | nil => simp [leadsWith]
  | cons x xs ih =>
      cases l with
      | nil => simp [leadsWith]
      | cons y ys =>
          simp only [leadsWith, Bool.and_eq_true, decide_eq_true_eq, ih]
          constructor
          · rintro ⟨h1, rest, h2⟩
            exact ⟨rest, by rw [h1, h2]; rfl⟩
          · rintro ⟨rest, h⟩
            injection h with h1 h2
            exact ⟨h1.symm, rest, h2⟩

theorem ruleMatches_non_default (r : Rule) (t : LocalPath)
    (hnd : r.default = false) :
    ruleMatches r t = true ↔ ∃ mid, t = r.dir ++ mid ++ [r.name] := by
  unfold ruleMatches
  rw [hnd]
  constructor
  · intro h
    simp only [Bool.and_eq_true, decide_eq_true_eq] at h
    obtain ⟨⟨hlead, hlen⟩, hlast⟩ := h
    obtain ⟨rest, hrest⟩ := (leadsWith_iff _ _).mp hlead
    subst hrest
    have hne : rest ≠ [] := by
      intro hcon
      subst hcon
      simp at hlen
    rw [List.getLast?_append_of_ne_nil _ hne] at hlast
    rw [List.getLast?_eq_getLast _ hne] at hlast
    simp only [if_false, Bool.if_false_left] at hlast
    have hlast' : rest.getLast hne = r.name := by
      cases hm : rest.getLast? with
      | none => simp_all [List.getLast?_eq_getLast _ hne]
      | some z => simp_all
    refine ⟨rest.dropLast, ?_⟩
    rw [List.append_assoc, ← hlast', List.dropLast_append_getLast hne]
  · rintro ⟨mid, hmid⟩
    subst hmid
    simp only [Bool.and_eq_true, decide_eq_true_eq]
    refine ⟨⟨?_, ?_⟩, ?_⟩
    · exact (leadsWith_iff _ _).mpr ⟨mid ++ [r.name], by simp⟩
    · simp only [List.length_append, List.length_cons, List.length_nil]
      omega
    · rw [List.getLast?_concat]
      simp

theorem jobFor_singleton (r : Rule) (t : LocalPath) :
    jobFor ⟨[r]⟩ t =
      if ruleMatches r t then some ⟨r.toPath, t, []⟩ else none := by
  unfold jobFor
  cases hm : ruleMatches r t <;> simp [List.find?, hm]

theorem findValid_ok_some (f : Trace → Except Unit (Option BuildTree)) :
    ∀ (ts : List Trace) (bt : BuildTree), findValid f ts = .ok (some bt) →
      ∃ t ∈ ts, f t = .ok (some bt) := by
  intro ts
  induction ts with
  | nil => intro bt h; simp [findValid] at h
  | cons t rest ih =>
      intro bt h
      simp only [findValid] at h
      cases hf : f t with
      | error e => rw [hf] at h; simp at h
      | ok o =>
          cases o with
          | some bt' =>
              rw [hf] at h
              simp only [Except.ok.injEq, Option.some.injEq] at h
              exact ⟨t, by simp, by rw [hf, h]⟩
          | none =>
              rw [hf] at h
              obtain ⟨t', ht', hft'⟩ := ih bt h
              exact ⟨t', by simp [ht'], hft'⟩

theorem staleRejected (w : World) (g : DepGraph) (n : Nat) (j : JobSpec)
    (t : Trace) (h : StaleTrace w t) :
    isTraceValidF w g (n + 1) j t = .ok none := by
  rcases h with ⟨u, hu, hlt⟩ | ⟨id, hid, hne⟩
  · simp [isTraceValidF, hu, hlt]
  · by_cases h1 : (t.valid_until.map fun u => decide (u < w.now)).getD false = true
    · simp [isTraceValidF, h1]
    · have hcur : isCurrent w id = false := by
        unfold isCurrent
        exact beq_eq_false_iff_ne.mpr hne
      simp [isTraceValidF, h1, hid, hcur]

theorem chopCR_no_cr (s : Str) (h : '\r' ∉ s) : chopCR s = s := by
  unfold chopCR
  cases hg : s.getLast? with
  | none => rfl
  | some c =>
      have hcm : c ∈ s.getLast? := by rw [hg]; rfl
      obtain ⟨hne, hceq⟩ := List.mem_getLast?_eq_getLast hcm
      have hcs : c ∈ s := hceq ▸ List.getLast_mem hne
      have : c ≠ '\r' := fun hcon => h (hcon ▸ hcs)
      show (if c = '\r' then s.dropLast else s) = s
      rw [if_neg this]

theorem rustLines_two (l1 l2 : Str) (h1 : '\n' ∉ l1) (h2 : '\n' ∉ l2)
    (hc1 : '\r' ∉ l1) (hc2 : '\r' ∉ l2) :
    rustLines (l1 ++ '\n' :: (l2 ++ ['\n'])) = [l1, l2] := by
  have hsplit : splitAll '\n' (l1 ++ '\n' :: (l2 ++ ['\n'])) = [l1, l2, []] := by
    rw [splitAll_append _ _ _ h1,
      show (l2 ++ ['\n'] : Str) = l2 ++ '\n' :: [] from rfl,
      splitAll_append _ _ _ h2]
    rfl
  unfold rustLines
  rw [if_neg (by simp), hsplit]
  show [chopCR l1, chopCR l2] = [l1, l2]
  rw [chopCR_no_cr l1 hc1, chopCR_no_cr l2 hc2]

theorem mem_joinWith (sep : Char) (l : List Str) (c : Char)
    (h : c ∈ joinWith sep l) : c = sep ∨ ∃ x ∈ l, c ∈ x := by
  induction l with
  | nil => simp [joinWith] at h
  | cons x xs ih =>
      cases xs with
      | nil => exact Or.inr ⟨x, by simp, by simpa [joinWith] using h⟩
      | cons y ys =>
          simp only [joinWith] at h
          rcases List.mem_append.mp h with hm | hm
          · exact Or.inr ⟨x, by simp, hm⟩
          · rcases List.mem_cons.mp hm with hm | hm
            · exact Or.inl hm
            · rcases ih hm with hc | ⟨z, hz, hcz⟩
              · exact Or.inl hc
              · exact Or.inr ⟨z, List.mem_cons_of_mem _ hz, hcz⟩

theorem renderPath_not_mem (p : LocalPath) (c : Char) (hc : c ≠ '/')
    (h : ∀ comp ∈ p, c ∉ comp) : c ∉ renderPath p := by
  intro hm
  rcases mem_joinWith '/' p c hm with h1 | ⟨x, hx, hcx⟩
  · exact hc h1
  · exact h x hx hcx

theorem parsePath_renderPath (p : LocalPath) (hw : PathWf p) :
    parsePath (renderPath p) = p :=
  joinWith_splitAll '/' p hw.1 hw.2

theorem parseStamp_renderStamp (s : FileStamp) (hw : StampWf s) :
    parseStamp (renderStamp s) = some s := by
  obtain ⟨hpw, hat, hb⟩ := hw
  unfold parseStamp renderStamp
  rw [splitOnce_append '@' _ _ (renderPath_not_mem _ _ (by decide) hat)]
  show (parseHexExact 64 (toHexFixed 64 s.hash)).map
      (fun h => FileStamp.mk (parsePath (renderPath s.path)) h) = some s
  rw [parseHexExact_toHexFixed 64 _ hb]
  show some (FileStamp.mk (parsePath (renderPath s.path)) s.hash) = some s
  rw [parsePath_renderPath s.path hpw]

theorem parseUuid_renderUuid (n : Nat) (hn : n < 16 ^ 32) :
    parseUuid (renderUuid n) = some n := by
  have h1 : n / 16 ^ 24 < 16 ^ 8 := by
    have hp : (16:Nat) ^ 32 = 16 ^ 24 * 16 ^ 8 := by ring
    exact Nat.div_lt_of_lt_mul (hp ▸ hn)
  have h2 : n / 16 ^ 20 % 16 ^ 4 < 16 ^ 4 := Nat.mod_lt _ (by positivity)
  have h3 : n / 16 ^ 16 % 16 ^ 4 < 16 ^ 4 := Nat.mod_lt _ (by positivity)
  have h4 : n / 16 ^ 12 % 16 ^ 4 < 16 ^ 4 := Nat.mod_lt _ (by positivity)
  have h5 : n % 16 ^ 12 < 16 ^ 12 := Nat.mod_lt _ (by positivity)
  have hm1 := toHexFixed_not_mem 8 _ h1 '-' (Or.inl (by decide))
  have hm2 := toHexFixed_not_mem 4 _ h2 '-' (Or.inl (by decide))
  have hm3 := toHexFixed_not_mem 4 _ h3 '-' (Or.inl (by decide))
  have hm4 := toHexFixed_not_mem 4 _ h4 '-' (Or.inl (by decide))
  have hm5 := toHexFixed_not_mem 12 _ h5 '-' (Or.inl (by decide))
  unfold parseUuid renderUuid
  rw [splitAll_append _ _ _ hm1, splitAll_append _ _ _ hm2,
    splitAll_append _ _ _ hm3, splitAll_append _ _ _ hm4,
    splitAll_no_sep _ _ hm5]
  show ((parseHexExact 8 (toHexFixed 8 (n / 16 ^ 24))).bind fun va =>
      (parseHexExact 4 (toHexFixed 4 (n / 16 ^ 20 % 16 ^ 4))).bind fun vb =>
      (parseHexExact 4 (toHexFixed 4 (n / 16 ^ 16 % 16 ^ 4))).bind fun vc =>
      (parseHexExact 4 (toHexFixed 4 (n / 16 ^ 12 % 16 ^ 4))).bind fun vd =>
      (parseHexExact 12 (toHexFixed 12 (n % 16 ^ 12))).map fun ve =>
        va * 16 ^ 24 + vb * 16 ^ 20 + vc * 16 ^ 16 + vd * 16 ^ 12 + ve) = some n
  rw [parseHexExact_toHexFixed 8 _ h1]
  show ((parseHexExact 4 (toHexFixed 4 (n / 16 ^ 20 % 16 ^ 4))).bind fun vb =>
      (parseHexExact 4 (toHexFixed 4 (n / 16 ^ 16 % 16 ^ 4))).bind fun vc =>
      (parseHexExact 4 (toHexFixed 4 (n / 16 ^ 12 % 16 ^ 4))).bind fun vd =>
      (parseHexExact 12 (toHexFixed 12 (n % 16 ^ 12))).map fun ve =>
        n / 16 ^ 24 * 16 ^ 24 + vb * 16 ^ 20 + vc * 16 ^ 16 + vd * 16 ^ 12 + ve)
      = some n
  rw [parseHexExact_toHexFixed 4 _ h2]
  show ((parseHexExact 4 (toHexFixed 4 (n / 16 ^ 16 % 16 ^ 4))).bind fun vc =>
      (parseHexExact 4 (toHexFixed 4 (n / 16 ^ 12 % 16 ^ 4))).bind fun vd =>
      (parseHexExact 12 (toHexFixed 12 (n % 16 ^ 12))).map fun ve =>
        n / 16 ^ 24 * 16 ^ 24 + n / 16 ^ 20 % 16 ^ 4 * 16 ^ 20 + vc * 16 ^ 16 +
          vd * 16 ^ 12 + ve) = some n
  rw [parseHexExact_toHexFixed 4 _ h3]
  show ((parseHexExact 4 (toHexFixed 4 (n / 16 ^ 12 % 16 ^ 4))).bind fun vd =>
      (parseHexExact 12 (toHexFixed 12 (n % 16 ^ 12))).map fun ve =>
        n / 16 ^ 24 * 16 ^ 24 + n / 16 ^ 20 % 16 ^ 4 * 16 ^ 20 +
          n / 16 ^ 16 % 16 ^ 4 * 16 ^ 16 + vd * 16 ^ 12 + ve) = some n
  rw [parseHexExact_toHexFixed 4 _ h4]
  show ((parseHexExact 12 (toHexFixed 12 (n % 16 ^ 12))).map fun ve =>
      n / 16 ^ 24 * 16 ^ 24 + n / 16 ^ 20 % 16 ^ 4 * 16 ^ 20 +
        n / 16 ^ 16 % 16 ^ 4 * 16 ^ 16 + n / 16 ^ 12 % 16 ^ 4 * 16 ^ 12 + ve)
      = some n
  rw [parseHexExact_toHexFixed 12 _ h5]
  show some (n / 16 ^ 24 * 16 ^ 24 + n / 16 ^ 20 % 16 ^ 4 * 16 ^ 20 +
      n / 16 ^ 16 % 16 ^ 4 * 16 ^ 16 + n / 16 ^ 12 % 16 ^ 4 * 16 ^ 12 +
      n % 16 ^ 12) = some n
  congr 1
  have e4 : (16:Nat) ^ 4 = 65536 := by norm_num
  have e12 : (16:Nat) ^ 12 = 281474976710656 := by norm_num
  have e16 : (16:Nat) ^ 16 = 18446744073709551616 := by norm_num
  have e20 : (16:Nat) ^ 20 = 1208925819614629174706176 := by norm_num
  have e24 : (16:Nat) ^ 24 = 79228162514264337593543950336 := by norm_num
  rw [e4, e12, e16, e20, e24]
  omega

theorem parseLine_eval (pts : Str → Option Nat) (tag rest : Str)
    (h : ' ' ∉ tag) :
    parseLine pts (tag ++ ' ' :: rest) =
      (if tag = toL "source" then (parseStamp rest).map .source
       else if tag = toL "generated" then (parseStamp rest).map .generated
       else if tag = toL "produced" then (parseStamp rest).map .produced
       else if tag = toL "env_var" then (parseEnvVar rest).map .envVar
       else if tag = toL "data" then (parseHexExact 64 rest).map .data
       else if tag = toL "valid_for" then (parseUuid rest).map .validFor
       else if tag = toL "valid_until" then (pts rest).map .validUntil
       else none) := by
  unfold parseLine
  rw [splitOnce_append ' ' tag rest h]
  rfl

theorem parseJobSpec_renderJobSpec (j : JobSpec) (hw : JobWf j) :
    parseJobSpec (renderJobSpec j) = some j := by
  obtain ⟨jr, jt, je⟩ := j
  obtain ⟨hrw, htw, hrp, htc, henv⟩ := hw
  simp only at hrp htc henv
  subst henv
  unfold renderJobSpec parseJobSpec
  simp only [List.map_nil, List.flatten_nil, List.append_nil, List.nil_append]
  rw [splitOnce_append '(' _ _ (renderPath_not_mem _ _ (by decide) hrp)]
  show (match splitAll ',' (trimEndChar ')' (renderPath jt ++ [')'])) with
    | [] => none
    | tgt :: envs =>
        (envs.mapM (splitOnce '=')).map fun kvs =>
          JobSpec.mk (parsePath (renderPath jr)) (parsePath tgt) kvs)
      = some (JobSpec.mk jr jt [])
  rw [trimEndChar_append ')' _
      (renderPath_not_mem _ _ (by decide) (fun c hc => (htc c hc).2)),
    splitAll_no_sep ',' _
      (renderPath_not_mem _ _ (by decide) (fun c hc => (htc c hc).1))]
  show some (JobSpec.mk (parsePath (renderPath jr)) (parsePath (renderPath jt)) [])
      = some (JobSpec.mk jr jt [])
  rw [parsePath_renderPath jr hrw, parsePath_renderPath jt htw]

theorem findWitness_ok_none (f : JobSpec → Trace → Except Unit (Option BuildTree)) :
    ∀ (cands : List (JobSpec × Trace)), findWitness f cands = .ok none →
      ∀ jt ∈ cands, f jt.1 jt.2 = .ok none := by
  intro cands
  induction cands with
  | nil => intro _ jt hjt; simp at hjt
  | cons p rest ih =>
      intro h jt hjt
      simp only [findWitness] at h
      cases hf : f p.1 p.2 with
      | error e => rw [hf] at h; simp at h
      | ok o =>
          cases o with
          | some bt => rw [hf] at h; simp at h
          | none =>
              rw [hf] at h
              rcases List.mem_cons.mp hjt with rfl | hjt'
              · exact hf
              · exact ih h jt hjt'

theorem findWitness_ok_some (f : JobSpec → Trace → Except Unit (Option BuildTree)) :
    ∀ (cands : List (JobSpec × Trace)) (bt : BuildTree),
      findWitness f cands = .ok (some bt) →
      ∃ jt ∈ cands, f jt.1 jt.2 = .ok (some bt) := by
  intro cands
  induction cands with
  | nil => intro bt h; simp [findWitness] at h
  | cons p rest ih =>
      intro bt h
      simp only [findWitness] at h
      cases hf : f p.1 p.2 with
      | error e => rw [hf] at h; simp at h
      | ok o =>
          cases o with
          | some bt' =>
              rw [hf] at h
              simp only [Except.ok.injEq, Option.some.injEq] at h
              exact ⟨p, by simp, by rw [hf, h]⟩
          | none =>
              rw [hf] at h
              obtain ⟨jt, hjt, hfjt⟩ := ih bt h
              exact ⟨jt, List.mem_cons_of_mem _ hjt, hfjt⟩

theorem collectInts_ok_some (f : JobSpec → Trace → Except Unit (Option BuildTree))
    (g : DepGraph) :
    ∀ (xs : List FileStamp) (l : List (FileStamp × BuildTree)),
      collectInts f g xs = .ok (some l) →
      ∀ x ∈ xs, ∃ bt, findWitness f (runsProducing g x) = .ok (some bt) := by
  intro xs
  induction xs with
  | nil => intro l _ x hx; simp at hx
  | cons y rest ih =>
      intro l h x hx
      simp only [collectInts] at h
      cases hw : findWitness f (runsProducing g y) with
      | error e => rw [hw] at h; simp at h
      | ok o =>
          cases o with
          | none => rw [hw] at h; simp at h
          | some bt =>
              rw [hw] at h
              cases hc : collectInts f g rest with
              | error e => rw [hc] at h; simp at h
              | ok o2 =>
                  cases o2 with
                  | none => rw [hc] at h; simp at h
                  | some l2 =>
                      rcases List.mem_cons.mp hx with rfl | hx'
                      · exact ⟨bt, hw⟩
                      · exact ih l2 hc x hx'

theorem collectInts_ok_none (f : JobSpec → Trace → Except Unit (Option BuildTree))
    (g : DepGraph) :
    ∀ (xs : List FileStamp), collectInts f g xs = .ok none →
      ∃ x ∈ xs, findWitness f (runsProducing g x) = .ok none := by
  intro xs
  induction xs with
  | nil => intro h; simp [collectInts] at h
  | cons y rest ih =>
      intro h
      simp only [collectInts] at h
      cases hw : findWitness f (runsProducing g y) with
      | error e => rw [hw] at h; simp at h
      | ok o =>
          cases o with
          | none => exact ⟨y, by simp, hw⟩
          | some bt =>
              rw [hw] at h
              cases hc : collectInts f g rest with
              | error e => rw [hc] at h; simp at h
              | ok o2 =>
                  cases o2 with
                  | none =>
                      obtain ⟨x, hx, hfx⟩ := ih hc
                      exact ⟨x, List.mem_cons_of_mem _ hx, hfx⟩
                  | some l2 => rw [hc] at h; simp at h

theorem runsProducing_mono (g g' : DepGraph) (hle : graphLE g g')
    (x : FileStamp) (jt : JobSpec × Trace) (h : jt ∈ runsProducing g x) :
    jt ∈ runsProducing g' x := by
  unfold runsProducing at h ⊢
  rw [List.mem_filter] at h ⊢
  exact ⟨hle jt h.1, h.2⟩

/-! ## Claim theorems -/

/-- C3 (amended): serialise-then-parse is the identity for `JobSpec` with
an empty env list (and metacharacter-free paths), and for the `source`,
`generated`, `produced`, `data`, `valid_for` and `valid_until` tracefile
lines (the last whenever the external timestamp codec round-trips).  It is
not the identity for the remaining variants: a rendered `job` line does
not parse at all — `TraceFileLine::from_str` has no `"job"` arm, so it
falls into the `Unknown line` error — and a rendered `env_var` line parses
back with a trailing space appended to the value, because `EnvVar`'s
`Display` writes `"{k}={v} "`; for the same reason a `JobSpec` with a
nonempty env parses back with a space prepended to each key. -/
theorem c3_serialise_parse (rts : Nat → Str) (pts : Str → Option Nat) :
    (∀ j, JobWf j → parseJobSpec (renderJobSpec j) = some j) ∧
    (∀ s, StampWf s →
      parseLine pts (renderLine rts (.source s)) = some (.source s)) ∧
    (∀ s, StampWf s →
      parseLine pts (renderLine rts (.generated s)) = some (.generated s)) ∧
    (∀ s, StampWf s →
      parseLine pts (renderLine rts (.produced s)) = some (.produced s)) ∧
    (∀ h, h < 16 ^ 64 →
      parseLine pts (renderLine rts (.data h)) = some (.data h)) ∧
    (∀ b, b < 16 ^ 32 →
      parseLine pts (renderLine rts (.validFor b)) = some (.validFor b)) ∧
    (∀ t, pts (rts t) = some t →
      parseLine pts (renderLine rts (.validUntil t)) = some (.validUntil t)) ∧
    (∀ j, parseLine pts (renderLine rts (.job j)) = none) ∧
    (∀ e, '=' ∉ e.key → parseLine pts (renderLine rts (.envVar e)) =
      some (.envVar ⟨e.key, e.val ++ [' ']⟩)) := by
  refine ⟨fun j hw => parseJobSpec_renderJobSpec j hw,
    ?_, ?_, ?_, ?_, ?_, ?_, ?_, ?_⟩
  · intro s hw
    rw [show renderLine rts (.source s) = toL "source" ++ ' ' :: renderStamp s
        from rfl,
      parseLine_eval pts _ _ (by decide), if_pos rfl,
      parseStamp_renderStamp s hw]
    rfl
  · intro s hw
    rw [show renderLine rts (.generated s) = toL "generated" ++ ' ' :: renderStamp s
        from rfl,
      parseLine_eval pts _ _ (by decide), if_neg (by decide), if_pos rfl,
      parseStamp_renderStamp s hw]
    rfl
  · intro s hw
    rw [show renderLine rts (.produced s) = toL "produced" ++ ' ' :: renderStamp s
        from rfl,
      parseLine_eval pts _ _ (by decide), if_neg (by decide), if_neg (by decide),
      if_pos rfl, parseStamp_renderStamp s hw]
    rfl
  · intro h hb
    rw [show renderLine rts (.data h) = toL "data" ++ ' ' :: toHexFixed 64 h
        from rfl,
      parseLine_eval pts _ _ (by decide), if_neg (by decide), if_neg (by decide),
      if_neg (by decide), if_neg (by decide), if_pos rfl,
      parseHexExact_toHexFixed 64 h hb]
    rfl
  · intro b hb
    rw [show renderLine rts (.validFor b) = toL "valid_for" ++ ' ' :: renderUuid b
        from rfl,
      parseLine_eval pts _ _ (by decide), if_neg (by decide), if_neg (by decide),
      if_neg (by decide), if_neg (by decide), if_neg (by decide), if_pos rfl,
      parseUuid_renderUuid b hb]
    rfl
  · intro t hpt
    rw [show renderLine rts (.validUntil t) = toL "valid_until" ++ ' ' :: rts t
        from rfl,
      parseLine_eval pts _ _ (by decide), if_neg (by decide), if_neg (by decide),
      if_neg (by decide), if_neg (by decide), if_neg (by decide),
      if_neg (by decide), if_pos rfl, hpt]
    rfl
  · intro j
    rw [show renderLine rts (.job j) = toL "job" ++ ' ' :: renderJobSpec j
        from rfl,
      parseLine_eval pts _ _ (by decide), if_neg (by decide), if_neg (by decide),
      if_neg (by decide), if_neg (by decide), if_neg (by decide),
      if_neg (by decide), if_neg (by decide)]
  · intro e he
    rw [show renderLine rts (.envVar e) = toL "env_var" ++ ' ' :: renderEnvVar e
        from rfl,
      parseLine_eval pts _ _ (by decide), if_neg (by decide), if_neg (by decide),
      if_neg (by decide), if_pos rfl]
    unfold parseEnvVar renderEnvVar
    rw [splitOnce_append '=' _ _ he]
    rfl

/-- C3 counterexample: the rendered line of `TraceFileLine::Job(r.do(t))`
does not parse back to itself — it does not parse at all (no `"job"` arm
in `FromStr`) — and the rendered `env_var K=V` line does not parse back to
itself either (the value gains the trailing space of `EnvVar`'s
`Display`). -/
theorem c3_counterexample :
    parseLine natPts (renderLine natRts (.job jEx)) = none ∧
    parseLine natPts (renderLine natRts (.envVar ⟨toL "K", toL "V"⟩)) ≠
      some (.envVar ⟨toL "K", toL "V"⟩) := by
  constructor <;> decide

/-- C3 witness: the round trip at the concrete job `r.do(t)`, a concrete
stamp, and a concrete `valid_until` time under the concrete codec. -/
theorem c3_witness :
    parseJobSpec (renderJobSpec jEx) = some jEx ∧
    parseLine natPts (renderLine natRts (.source stampX)) =
      some (.source stampX) ∧
    parseLine natPts (renderLine natRts (.validUntil 5)) =
      some (.validUntil 5) :=
  ⟨(c3_serialise_parse natRts natPts).1 jEx
      ⟨⟨by decide, by decide⟩, ⟨by decide, by decide⟩, by decide, by decide, rfl⟩,
    (c3_serialise_parse natRts natPts).2.1 stampX
      ⟨⟨by decide, by decide⟩, by decide, by norm_num [stampX]⟩,
    (c3_serialise_parse natRts natPts).2.2.2.2.2.2.1 5 (by decide)⟩

/-- C4: the spec asks that the trace-validity recursion detect cycles and
treat them as invalid, terminating on every finite graph.  The code has no
cycle detection (its own TODO, `Protect against stack overflows`, flags
this): on the malformed graph `gCyc`, whose single trace lists its own
output `x` as an intermediate, `is_trace_valid` recurses into itself
through `runs_producing x` forever — in the fuel model, it runs out of
fuel at every fuel bound, for every ambient world. -/
theorem c4_cycle_divergence :
    ∀ (w : World) (n : Nat), isTraceValidF w gCyc n jCyc tCyc = .error () := by
  intro w n
  exact cycDiverges w gCyc jCyc tCyc stampX [] rfl rfl rfl rfl rfl n

/-- C5: `drop_out_of_date` is claimed to drop traces whose source stamps
fail `is_valid()` (a missing file being a failure) and to complete.  On
`gC5`, whose only trace has a source stamp for a file absent from the
disk, the code instead panics: `is_valid()` returns an error and the
`.unwrap()` in the retain closure aborts — modelled as the `none` result
here. -/
theorem c5_drop_out_of_date_panics : dropOutOfDate wNull gC5 = none := rfl

/-- C6 (amended): for two rules in the same directory the priority
comparison always inverts under swapping its arguments, and an `Equal`
result forces equal directory, equal default flag and equal name *length*
— but not equal rules: name equality is not compared (see the
counterexample of two default rules with distinct equal-length
extensions). -/
theorem c6_priority_same_dir (a b : Rule) (hdir : a.dir = b.dir) :
    (Rule.priority a b).swap = Rule.priority b a ∧
    (Rule.priority a b = .eq →
      a.dir = b.dir ∧ a.default = b.default ∧ a.name.length = b.name.length) := by
  constructor
  · unfold Rule.priority
    rw [then_swap, then_swap, Ordering.swap_swap, Nat.compare_swap,
      Nat.compare_swap, cmpBool_swap]
  · intro heq
    unfold Rule.priority at heq
    obtain ⟨h1, h3⟩ := then_eq_eq heq
    obtain ⟨_, h2⟩ := then_eq_eq h1
    refine ⟨hdir, ?_, Nat.compare_eq_eq.mp h3⟩
    have h2' : cmpBool a.default b.default = .eq := by
      cases hc : cmpBool a.default b.default <;> simp_all [Ordering.swap]
    exact cmpBool_eq_eq h2'

/-- C6 counterexample: the default rules `default.a.do` and `default.b.do`
in the workspace root have equal priority in both directions, yet are
different rules — `priority(a,b) = Equal` does not imply `a = b`. -/
theorem c6_counterexample :
    rDotA.dir = rDotB.dir ∧ Rule.priority rDotA rDotB = .eq ∧ rDotA ≠ rDotB := by
  refine ⟨rfl, rfl, ?_⟩
  decide

/-- C2 (amended): a non-default rule named `foo.bar.do` in directory D
compiles to the glob `D/**/foo.bar`, whose `**/` matches zero or more
intermediate components; with that rule as the only rule, `job_for`
returns a job using it exactly for the targets `D/…/foo.bar` — `D/foo.bar`
itself and the same file name in every subdirectory of D — and `None`
otherwise. -/
theorem c2_non_default_rule_matches (r : Rule) (t : LocalPath)
    (hnd : r.default = false) :
    (jobFor ⟨[r]⟩ t = some ⟨r.toPath, t, []⟩ ↔
      ∃ mid, t = r.dir ++ mid ++ [r.name]) ∧
    (jobFor ⟨[r]⟩ t = none ↔ ¬∃ mid, t = r.dir ++ mid ++ [r.name]) := by
  rw [← ruleMatches_non_default r t hnd, jobFor_singleton]
  cases hm : ruleMatches r t <;> simp [hm]

/-- C2 counterexample: the claim says the rule `d/foo.bar.do` matches
exactly `d/foo.bar` and that `job_for` returns `None` for the subdirectory
target `d/sub/foo.bar`; the synthesised glob `d/**/foo.bar` matches it,
and `job_for` returns a job. -/
theorem c2_counterexample : jobFor rsC2 tC2sub ≠ none := by decide

/-- C2 witness: the rule does match its own directory's target
`d/foo.bar`. -/
theorem c2_witness :
    jobFor ⟨[rC2]⟩ [toL "d", toL "foo.bar"] =
      some ⟨rC2.toPath, [toL "d", toL "foo.bar"], []⟩ :=
  (c2_non_default_rule_matches rC2 [toL "d", toL "foo.bar"] rfl).1.mpr
    ⟨[], by decide⟩

/-- C1: a trace whose `valid_until` is set and strictly earlier than the
current time, or whose `valid_for` is set and differs from the build id in
`REDUX_BUILD_ID` (also when none is set), is rejected by `is_trace_valid`
at any fuel; consequently any tree returned by `valid_trace_for` comes
from one of the job's stored traces that is not stale. -/
theorem c1_stale_traces_rejected (w : World) (g : DepGraph) (n : Nat)
    (j : JobSpec) :
    (∀ t, StaleTrace w t → isTraceValidF w g (n + 1) j t = .ok none) ∧
    (∀ bt, validTraceForF w g n j = .ok (some bt) →
      ∃ ts, g.traces.lookup j = some ts ∧
        ∃ t ∈ ts, isTraceValidF w g n j t = .ok (some bt) ∧ ¬StaleTrace w t) := by
  refine ⟨fun t h => staleRejected w g n j t h, ?_⟩
  intro bt h
  unfold validTraceForF at h
  cases hl : g.traces.lookup j with
  | none => rw [hl] at h; simp at h
  | some ts =>
      rw [hl] at h
      obtain ⟨t, hmem, hok⟩ := findValid_ok_some _ ts bt h
      refine ⟨ts, rfl, t, hmem, hok, ?_⟩
      intro hstale
      cases n with
      | zero => rw [show isTraceValidF w g 0 j t = .error () from rfl] at hok; cases hok
      | succ m => rw [staleRejected w g m j t hstale] at hok; cases hok

/-- C1 witness: at time 10, a trace that expired at time 5 is rejected. -/
theorem c1_witness : isTraceValidF wTen gEmpty 1 jEx tStale = .ok none :=
  (c1_stale_traces_rejected wTen gEmpty 0 jEx).1 tStale
    (Or.inl ⟨5, rfl, by decide⟩)

/-- C6 witness: the swap law at the two concrete root rules. -/
theorem c6_witness :
    (Rule.priority rDotA rDotB).swap = Rule.priority rDotB rDotA :=
  (c6_priority_same_dir rDotA rDotB rfl).1

/-- C9: `job_for` always builds its `JobSpec` with an empty env list;
consequently `is_job_valid` rejects every job with a nonempty env, and
`drop_superseded` (the pure pruning step of `DepGraph::load`) drops every
trace keyed by such a job, whatever the rule set. -/
theorem c9_env_always_empty (rs : RuleSet) :
    (∀ t j, jobFor rs t = some j → j.env = []) ∧
    (∀ j, j.env ≠ [] → isJobValid rs j = false) ∧
    (∀ g j ts, (j, ts) ∈ (dropSuperseded rs g).traces → j.env = []) := by
  have hfor : ∀ t j, jobFor rs t = some j → j.env = [] := by
    intro t j h
    unfold jobFor at h
    cases hf : rs.rules.find? fun r => ruleMatches r t with
    | none => rw [hf] at h; simp at h
    | some r =>
        rw [hf] at h
        simp only [Option.map_some', Option.some.injEq] at h
        rw [← h]
  have hvalid : ∀ j, j.env ≠ [] → isJobValid rs j = false := by
    intro j hne
    unfold isJobValid
    cases hf : jobFor rs j.target with
    | none => rfl
    | some j' =>
        have : j' ≠ j := by
          intro hcon
          exact hne (by rw [← hcon]; exact hfor _ _ hf)
        simp [this]
  refine ⟨hfor, hvalid, ?_⟩
  intro g j ts hmem
  unfold dropSuperseded at hmem
  simp only [List.mem_filter] at hmem
  by_contra hne
  have := hvalid j hne
  rw [this] at hmem
  simp at hmem

/-- C9 witness: in the empty rule set, a job carrying an env entry is
rejected by `is_job_valid`. -/
theorem c9_witness :
    isJobValid ⟨[]⟩ ⟨[toL "r.do"], [toL "t"], [(toL "K", toL "V")]⟩ = false :=
  (c9_env_always_empty ⟨[]⟩).2.1 _ (by decide)

/-- C7 (amended): trace validity never flips from valid to *invalid* as
the graph grows — at fixed time, build id and disk, if `is_trace_valid`
returns a `BuildTree` in `G` then in any extension `G'` (same (job, trace)
pairs plus possibly more, in any iteration order) it cannot return the
negative verdict: with at least as much fuel the result is either some
`BuildTree` or out-of-fuel at every level.  The non-returning case is
real: the added traces can form a cycle that the candidate search visits
first, making the Rust recursion diverge instead of returning (see the
counterexample), so "still returns some BuildTree" does not hold as
claimed. -/
theorem c7_monotone_no_invalidation (w : World) (g g' : DepGraph)
    (hle : graphLE g g') :
    ∀ n m j t bt, n ≤ m → isTraceValidF w g n j t = .ok (some bt) →
      isTraceValidF w g' m j t ≠ .ok none := by
  intro n
  induction n with
  | zero => intro m j t bt _ h; simp [isTraceValidF] at h
  | succ k ih =>
      intro m j t bt hm h hcon
      cases m with
      | zero => simp [isTraceValidF] at hcon
      | succ l =>
          have hkl : k ≤ l := Nat.succ_le_succ_iff.mp hm
          simp only [isTraceValidF] at h hcon
          by_cases hc1 :
              ((t.valid_until.map fun u => decide (u < w.now)).getD false) = true
          · rw [if_pos hc1] at h; simp at h
          · rw [if_neg hc1] at h hcon
            by_cases hc2 :
                ((t.valid_for.map fun id => !isCurrent w id).getD false) = true
            · rw [if_pos hc2] at h; simp at h
            · rw [if_neg hc2] at h hcon
              by_cases hc3 :
                  (!(t.sources.all fun s => (isValid w s).getD false)) = true
              · rw [if_pos hc3] at h; simp at h
              · rw [if_neg hc3] at h hcon
                cases hcg : collectInts (fun j u => isTraceValidF w g k j u) g
                    t.intermediates with
                | error e => rw [hcg] at h; simp at h
                | ok o =>
                    cases o with
                    | none => rw [hcg] at h; simp at h
                    | some lst =>
                        cases hcg' : collectInts
                            (fun j u => isTraceValidF w g' l j u) g'
                            t.intermediates with
                        | error e => rw [hcg'] at hcon; simp at hcon
                        | ok o' =>
                            cases o' with
                            | some lst' => rw [hcg'] at hcon; simp at hcon
                            | none =>
                                obtain ⟨x, hx, hnone⟩ :=
                                  collectInts_ok_none _ g' _ hcg'
                                obtain ⟨bt1, hsome⟩ :=
                                  collectInts_ok_some _ g _ lst hcg x hx
                                obtain ⟨jt1, hjt1, hf1⟩ :=
                                  findWitness_ok_some _ _ bt1 hsome
                                have hjt1' :=
                                  runsProducing_mono g g' hle x jt1 hjt1
                                have hzero :=
                                  findWitness_ok_none _ _ hnone jt1 hjt1'
                                exact ih l jt1.1 jt1.2 bt1 hkl hf1 hzero

/-- C7 counterexample: in `gMono` the trace of `jTop` validates (fuel 2
suffices), and `gMonoX` extends `gMono` by one malformed self-producing
trace whose job key iterates first; with the extension, `is_trace_valid`
on the very same (job, trace) pair no longer returns a `BuildTree` — it
diverges, running out of fuel at every bound. -/
theorem c7_counterexample :
    isTraceValidF wNull gMono 2 jTop tTop = .ok (some btTop) ∧
    graphLE gMono gMonoX ∧
    ∀ m, isTraceValidF wNull gMonoX m jTop tTop = .error () := by
  refine ⟨rfl, by unfold graphLE; decide, ?_⟩
  have hcyc : ∀ m, isTraceValidF wNull gMonoX m jCyc tCyc = .error () :=
    cycDiverges wNull gMonoX jCyc tCyc stampX [(jGood, tGood)]
      rfl rfl rfl rfl rfl
  intro m
  cases m with
  | zero => rfl
  | succ l =>
      have hrp : runsProducing gMonoX stampX = [(jCyc, tCyc), (jGood, tGood)] :=
        rfl
      simp [isTraceValidF, tTop, hrp, collectInts, findWitness, hcyc l]

/-- C7 witness: the amended theorem applied with `G' = G` (a graph extends
itself) at the concrete valid pair. -/
theorem c7_witness : isTraceValidF wNull gMono 3 jTop tTop ≠ .ok none :=
  c7_monotone_no_invalidation wNull gMono gMono (fun jt h => h) 2 3 jTop tTop
    btTop (by omega) rfl

/-- C8: `TraceFile::create` is exclusive.  When the tracefile
`<target-dir>/.redux_<target-basename>.trace` already exists it returns
the "in progress" outcome and leaves the filesystem (in particular that
file) unchanged; when it does not exist and the rule script is readable,
it creates exactly that file, whose contents are exactly the two lines
`job <JobSpec>` and `source <rule-stamp>` (the stamp hashing the rule
script itself), touching no other file. -/
theorem c8_create_exclusive (hash : Str → Nat) (fs : FS) (job : JobSpec)
    (hnlj : '\n' ∉ renderJobSpec job) (hcrj : '\r' ∉ renderJobSpec job)
    (hnlr : '\n' ∉ renderPath job.rule) (hcrr : '\r' ∉ renderPath job.rule) :
    (∀ c, fs (tracefilePath job) = some c →
      traceFileCreate hash fs job = (.inProgress, fs)) ∧
    (∀ rulesrc, fs (tracefilePath job) = none → fs job.rule = some rulesrc →
      hash rulesrc < 16 ^ 64 →
      (traceFileCreate hash fs job).1 = .created ∧
      ∃ c, (traceFileCreate hash fs job).2 (tracefilePath job) = some c ∧
        rustLines c = [toL "job " ++ renderJobSpec job,
          toL "source " ++ renderStamp ⟨job.rule, hash rulesrc⟩] ∧
        ∀ q, q ≠ tracefilePath job → (traceFileCreate hash fs job).2 q = fs q) := by
  constructor
  · intro c hc
    simp only [traceFileCreate, hc]
  · intro rulesrc hpath hrule hb
    have hcreate : traceFileCreate hash fs job =
        (.created, fsPut fs (tracefilePath job)
          ((renderLine (fun _ => []) (.job job) ++ ['\n']) ++
            (renderLine (fun _ => []) (.source ⟨job.rule, hash rulesrc⟩) ++ ['\n']))) := by
      simp only [traceFileCreate, hpath, hrule]
      simp only [List.append_assoc]
    have hAnl : '\n' ∉ toL "job " ++ renderJobSpec job := by
      intro hm
      rcases List.mem_append.mp hm with hm | hm
      · exact absurd hm (by decide)
      · exact hnlj hm
    have hAcr : '\r' ∉ toL "job " ++ renderJobSpec job := by
      intro hm
      rcases List.mem_append.mp hm with hm | hm
      · exact absurd hm (by decide)
      · exact hcrj hm
    have hsnl : '\n' ∉ renderStamp ⟨job.rule, hash rulesrc⟩ := by
      intro hm
      unfold renderStamp at hm
      rcases List.mem_append.mp hm with hm | hm
      · exact hnlr hm
      · rcases List.mem_cons.mp hm with hm | hm
        · exact absurd hm (by decide)
        · exact toHexFixed_not_mem 64 _ hb '\n' (Or.inl (by decide)) hm
    have hscr : '\r' ∉ renderStamp ⟨job.rule, hash rulesrc⟩ := by
      intro hm
      unfold renderStamp at hm
      rcases List.mem_append.mp hm with hm | hm
      · exact hcrr hm
      · rcases List.mem_cons.mp hm with hm | hm
        · exact absurd hm (by decide)
        · exact toHexFixed_not_mem 64 _ hb '\r' (Or.inl (by decide)) hm
    have hBnl : '\n' ∉ toL "source " ++ renderStamp ⟨job.rule, hash rulesrc⟩ := by
      intro hm
      rcases List.mem_append.mp hm with hm | hm
      · exact absurd hm (by decide)
      · exact hsnl hm
    have hBcr : '\r' ∉ toL "source " ++ renderStamp ⟨job.rule, hash rulesrc⟩ := by
      intro hm
      rcases List.mem_append.mp hm with hm | hm
      · exact absurd hm (by decide)
      · exact hscr hm
    refine ⟨by rw [hcreate], ?_⟩
    refine ⟨(renderLine (fun _ => []) (.job job) ++ ['\n']) ++
        (renderLine (fun _ => []) (.source ⟨job.rule, hash rulesrc⟩) ++ ['\n']),
      by rw [hcreate]; simp [fsPut], ?_, ?_⟩
    · have hshape : (renderLine (fun _ => []) (.job job) ++ ['\n']) ++
          (renderLine (fun _ => []) (.source ⟨job.rule, hash rulesrc⟩) ++ ['\n']) =
          (toL "job " ++ renderJobSpec job) ++ '\n' ::
            ((toL "source " ++ renderStamp ⟨job.rule, hash rulesrc⟩) ++ ['\n']) := by
        simp [renderLine]
      rw [hshape]
      exact rustLines_two _ _ hAnl hBnl hAcr hBcr
    · intro q hq
      rw [hcreate]
      simp [fsPut, hq]

/-- C8 witness: on a filesystem holding only the rule script, creating the
tracefile for `r.do(t)` succeeds. -/
theorem c8_witness : (traceFileCreate hashZero fsEx jEx).1 = .created :=
  ((c8_create_exclusive hashZero fsEx jEx (by decide) (by decide) (by decide)
    (by decide)).2 (toL "echo") (by decide) (by decide) (by positivity)).1

/-- C10: `TraceFile::read` splits the file at its first newline with
`.unwrap()`, so a file without a newline (for example an empty file)
panics; when the file is `job <header>\n<body>` (header newline-free and
not starting with a further `job `), it returns the header parsed as the
`JobSpec` together with the fold of the body's lines. -/
theorem c10_read_requires_newline (pts : Str → Option Nat) (txt : Str) :
    ('\n' ∉ txt → traceFileRead pts txt = .panic) ∧
    (∀ r body j, txt = toL "job " ++ r ++ '\n' :: body → '\n' ∉ r →
      dropPref (toL "job ") r = none → parseJobSpec r = some j →
      traceFileRead pts txt = .ok (j, parseTraceBody pts body)) := by
  constructor
  · intro h
    unfold traceFileRead
    rw [splitOnce_eq_none '\n' txt h]
  · intro r body j htxt hnr hdp hpj
    subst htxt
    have hassoc : toL "job " ++ r ++ '\n' :: body =
        (toL "job " ++ r) ++ '\n' :: body := by simp
    have hfree : '\n' ∉ toL "job " ++ r := by
      intro hmem
      rcases List.mem_append.mp hmem with hm | hm
      · exact absurd hm (by decide)
      · exact hnr hm
    unfold traceFileRead
    rw [hassoc, splitOnce_append '\n' (toL "job " ++ r) body hfree]
    show (match parseJobSpec (trimStartMatches (toL "job ") (toL "job " ++ r)) with
      | none => RRes.err
      | some job => RRes.ok (job, parseTraceBody pts body)) =
        RRes.ok (j, parseTraceBody pts body)
    rw [trimStartMatches_once (toL "job ") r (by decide) hdp, hpj]

/-- C10 witness: reading `job r.do(t)\n` yields the job `r.do(t)` and the
empty trace. -/
theorem c10_witness :
    traceFileRead natPts txtC10 = .ok (jEx, parseTraceBody natPts []) :=
  (c10_read_requires_newline natPts txtC10).2 (toL "r.do(t)") [] jEx rfl
    (by decide) (by decide) (by decide)

end Redux
